import Mathlib

/-!
Verification of the dd-multi transfer engine (src/dd-multi.go).

The Go program is shallowly embedded: 64-bit signed integers (Go `int64`)
are modelled as `Int` with an explicit two's-complement wrap `wrap64`
applied wherever the source performs arithmetic that can overflow;
Go strings are modelled as `List Char`; fallible operations return
`Option` or `Except`.  Floating-point arithmetic of the progress
renderer is modelled as exact rational arithmetic (`Rat`), with Go's
float-to-int conversion modelled as truncation toward zero.
-/

/-- `math.MaxInt64`, the sentinel used by the program for "no block-count
limit" (the default of the `count` flags). -/
def maxInt64 : Int := 2 ^ 63 - 1

/-- Reduction of an exact integer into the `int64` range, modelling Go's
two's-complement wrap-around on signed 64-bit arithmetic. -/
def wrap64 (x : Int) : Int := (x + 2 ^ 63) % 2 ^ 64 - 2 ^ 63

theorem wrap64_eq_of_fits {x : Int} (h1 : -(2 ^ 63) ≤ x) (h2 : x ≤ 2 ^ 63 - 1) :
    wrap64 x = x := by
  unfold wrap64
  rw [Int.emod_eq_of_lt (by omega) (by omega)]
  omega

/-! ## BlockSizeParser (`parseBlockSize`, dd-multi.go lines 135-160)

`parseBlockSize` takes the size token and a caller-supplied default.
It inspects the last character for a unit suffix, strips it, parses the
remaining characters with `strconv.ParseInt(sizeStr, 10, 64)` (fatal on
error, modelled as `none`) and returns the parsed value times the
multiplier, as an `int64` product (which wraps on overflow). -/

/-- Digit-and-sign part of Go's `strconv.ParseInt(s, 10, 64)`: consume
decimal digits accumulating the value; any non-digit character is a
syntax error. -/
def parseDigitsAux (acc : Nat) : List Char → Option Nat
  | [] => some acc
  | c :: r =>
    if 48 ≤ c.toNat ∧ c.toNat ≤ 57 then parseDigitsAux (acc * 10 + (c.toNat - 48)) r
    else none

/-- Go `strconv.ParseInt` rejects an empty digit string. -/
def parseDigits (cs : List Char) : Option Nat :=
  match cs with
  | [] => none
  | _ => parseDigitsAux 0 cs

/-- Model of Go's `strconv.ParseInt(s, 10, 64)`: optional single sign,
then a non-empty digit string; the value must fit in `int64`, otherwise
a range error (also `none`, since the caller treats every error alike). -/
def parseInt64 (cs : List Char) : Option Int :=
  match cs with
  | [] => none
  | c :: rest =>
    if c = '+' then
      (parseDigits rest).bind fun n =>
        if (n : Int) ≤ maxInt64 then some ((n : Nat) : Int) else none
    else if c = '-' then
      (parseDigits rest).bind fun n =>
        if (n : Int) ≤ 2 ^ 63 then some (-((n : Nat) : Int)) else none
    else
      (parseDigits (c :: rest)).bind fun n =>
        if (n : Int) ≤ maxInt64 then some ((n : Nat) : Int) else none

/-- The `switch lastChar` of `parseBlockSize`: the resulting multiplier
and the remaining numeric portion of the token. -/
def stripUnit (cs : List Char) : Int × List Char :=
  match cs.getLast? with
  | none => (1, cs)
  | some u =>
    if u = 'k' ∨ u = 'K' then (1024, cs.dropLast)
    else if u = 'M' then (1024 * 1024, cs.dropLast)
    else if u = 'G' then (1024 * 1024 * 1024, cs.dropLast)
    else if u = 'b' ∨ u = 'B' then (512, cs.dropLast)
    else (1, cs)

/-- `parseBlockSize` (dd-multi.go:135): empty token yields the default;
otherwise strip the unit, parse the numeric portion (`none` models the
`log.Fatalf` on a parse error) and return `val * multiplier` as an
`int64` product. -/
def parseBlockSize (cs : List Char) (dflt : Int) : Option Int :=
  if cs = [] then some dflt
  else
    match parseInt64 (stripUnit cs).2 with
    | none => none
    | some v => some (wrap64 (v * (stripUnit cs).1))

/-- Mathematical reading of a decimal digit string (most significant
digit first), used to state what the parser is supposed to compute. -/
def digitsToNat (cs : List Char) : Nat :=
  cs.foldl (fun a c => a * 10 + (c.toNat - 48)) 0

/-! ## ModeFlags (`parseConvOflag`, dd-multi.go lines 69-132)

Bit values are the Linux `os` package constants used by the program:
`O_WRONLY = 1`, `O_CREATE = 0x40`, `O_TRUNC = 0x200`, `O_SYNC = 0x101000`.
The accumulator is a 64-bit bit pattern, modelled as a `Nat` below `2^64`;
Go's bit complement `^x` on a 64-bit int is modelled by `not64`. -/

def O_WRONLY : Nat := 1

def O_CREATE : Nat := 64

def O_TRUNC : Nat := 512

def O_SYNC : Nat := 1052672

/-- `allowedFlags = os.O_TRUNC | os.O_SYNC` (dd-multi.go:84). -/
def allowedFlags : Nat := O_TRUNC ||| O_SYNC

/-- 64-bit bitwise complement. -/
def not64 (x : Nat) : Nat := (2 ^ 64 - 1) ^^^ x

/-- `bitClearAndSet` (dd-multi.go:70). -/
structure bitClearAndSet where
  clear : Nat
  set : Nat
deriving DecidableEq

/-- The token `"notrunc"`. -/
def notruncTok : List Char := ['n', 'o', 't', 'r', 'u', 'n', 'c']

/-- The token `"sync"`. -/
def syncTok : List Char := ['s', 'y', 'n', 'c']

/-- The sentinel token `"none"` (default of the `conv`/`oflag` flags). -/
def noneTok : List Char := ['n', 'o', 'n', 'e']

/-- `convMap` (dd-multi.go:76): its only entry is `notrunc ↦ {clear: os.O_TRUNC}`. -/
def convMapLookup (c : List Char) : Option bitClearAndSet :=
  if c = notruncTok then some ⟨O_TRUNC, 0⟩ else none

/-- `flagMap` (dd-multi.go:80): its only entry is `sync ↦ {set: os.O_SYNC}`. -/
def flagMapLookup (f : List Char) : Option bitClearAndSet :=
  if f = syncTok then some ⟨0, O_SYNC⟩ else none

/-- Model of Go's `strings.Split(s, ",")`. -/
def splitComma : List Char → List (List Char)
  | [] => [[]]
  | c :: rest =>
    if c = ',' then [] :: splitComma rest
    else
      match splitComma rest with
      | [] => [[c]]
      | h :: t => (c :: h) :: t

/-- Structured rendering of the errors `"unknown conv=%s"` and
`"unknown oflag=%s"`; each carries the offending token. -/
inductive ConvErr where
  | unknownConv (tok : List Char)
  | unknownOflag (tok : List Char)
deriving DecidableEq

instance {ε α : Type} [DecidableEq ε] [DecidableEq α] : DecidableEq (Except ε α) :=
  fun a b =>
  match a, b with
  | .ok x, .ok y => if h : x = y then .isTrue (by rw [h]) else .isFalse (by simp [h])
  | .error x, .error y => if h : x = y then .isTrue (by rw [h]) else .isFalse (by simp [h])
  | .ok _, .error _ => .isFalse (by simp)
  | .error _, .ok _ => .isFalse (by simp)

/-- One step of the `conv` loop body (dd-multi.go:112-119): apply the
clear/set pair for a recognized token, error out on an unknown one. -/
def applyConvTok (st : Except ConvErr Nat) (tok : List Char) : Except ConvErr Nat :=
  match st with
  | .error e => .error e
  | .ok f =>
    match convMapLookup tok with
    | some v => .ok ((f &&& not64 v.clear) ||| v.set)
    | none => .error (.unknownConv tok)

/-- One step of the `oflag` loop body (dd-multi.go:121-129). -/
def applyOflagTok (st : Except ConvErr Nat) (tok : List Char) : Except ConvErr Nat :=
  match st with
  | .error e => .error e
  | .ok f =>
    match flagMapLookup tok with
    | some v => .ok ((f &&& not64 v.clear) ||| v.set)
    | none => .error (.unknownOflag tok)

/-- `parseConvOflag` (dd-multi.go:109): starting from the accumulator `0`,
fold the comma-separated `conv` tokens, then the `oflag` tokens, skipping a
list whose whole string is the sentinel `"none"`; the first unknown token
aborts with an error naming it. -/
def parseConvOflag (convStr oflagStr : List Char) : Except ConvErr Nat :=
  let st1 : Except ConvErr Nat :=
    if convStr = noneTok then .ok 0
    else (splitComma convStr).foldl applyConvTok (.ok 0)
  if oflagStr = noneTok then st1
  else (splitComma oflagStr).foldl applyOflagTok st1

/-- The open mode computed by `outFile` (dd-multi.go:271):
`os.O_CREATE | os.O_WRONLY | (flags & allowedFlags)`. -/
def outFilePerm (flags : Nat) : Nat :=
  O_CREATE ||| O_WRONLY ||| (flags &&& allowedFlags)

/-! ## The transfer-building loop of `run` (dd-multi.go lines 373-416)

For each of the `numTransfers` flag sets, `run` skips a set whose input
and output names are both empty, calls `parseBlockSize` (whose failure is
`log.Fatalf`, killing the whole process), then `parseConvOflag` (whose
failure is logged with the transfer number and skips only that set), and
otherwise appends a `Transfer`.  If no set is accepted, or `numTransfers`
is out of `[1, MaxTransfers]`, `usage()` terminates the process.
Otherwise one worker per accepted transfer is launched. -/

/-- One flag set of `run` (the `if{i}`, `of{i}`, `bs{i}`, `conv{i}`,
`oflag{i}`, `count{i}`, `skip{i}`, `seek{i}`, `size{i}` values). -/
structure RawCfg where
  inName : List Char
  outName : List Char
  bsStr : List Char
  convStr : List Char
  oflagStr : List Char
  count : Int
  skip : Int
  seek : Int
  size : Int
deriving DecidableEq

/-- The immutable configuration part of a `Transfer` record
(dd-multi.go:399-410). -/
structure TransferCfg where
  inName : List Char
  outName : List Char
  bs : Int
  count : Int
  size : Int
  skip : Int
  seek : Int
  conv : List Char
  oflag : Nat
deriving DecidableEq

/-- The `Transfer` literal built at dd-multi.go:399. -/
def mkTransfer (c : RawCfg) (bsVal : Int) (flags : Nat) : TransferCfg :=
  { inName := c.inName, outName := c.outName, bs := bsVal, count := c.count,
    size := c.size, skip := c.skip, seek := c.seek, conv := c.convStr,
    oflag := flags }

/-- Result of the building loop: either the process died in
`parseBlockSize`'s `log.Fatalf` at flag set `idx`, or the loop finished
with the accepted transfers and the logged per-set `conv`/`oflag`
errors (each tagged with its 1-based transfer number). -/
inductive BuildResult where
  | fatalBs (idx : Nat)
  | built (ts : List TransferCfg) (logs : List (Nat × ConvErr))
deriving DecidableEq

/-- The loop body of dd-multi.go:375-412, processing flag sets in order
starting at 1-based index `idx`. -/
def buildAux (idx : Nat) : List RawCfg → BuildResult
  | [] => .built [] []
  | c :: rest =>
    if c.inName = [] ∧ c.outName = [] then buildAux (idx + 1) rest
    else
      match parseBlockSize c.bsStr 512 with
      | none => .fatalBs idx
      | some bsVal =>
        match parseConvOflag c.convStr c.oflagStr with
        | .error e =>
          match buildAux (idx + 1) rest with
          | .fatalBs j => .fatalBs j
          | .built ts logs => .built ts ((idx, e) :: logs)
        | .ok flags =>
          match buildAux (idx + 1) rest with
          | .fatalBs j => .fatalBs j
          | .built ts logs => .built (mkTransfer c bsVal flags :: ts) logs

/-- Fate of an invocation of `run` up to the launching of workers:
`usageExit` and `fatalBadBs` terminate the process before any transfer
starts; `ran ts logs` means one worker is launched for every transfer in
`ts` (all of them proceed regardless of the errors recorded in `logs`). -/
inductive RunOutcome where
  | usageExit
  | fatalBadBs (idx : Nat)
  | ran (ts : List TransferCfg) (logs : List (Nat × ConvErr))
deriving DecidableEq

/-- `run` up to worker launch (dd-multi.go:369-433): the `numTransfers`
range check, the building loop over the first `numTransfers` flag sets,
and the zero-accepted-transfers check. -/
def runModel (numTransfers : Int) (cfgs : List RawCfg) : RunOutcome :=
  if numTransfers ≤ 0 ∨ 50 < numTransfers then .usageExit
  else
    match buildAux 1 cfgs with
    | .fatalBs i => .fatalBadBs i
    | .built [] _ => .usageExit
    | .built ts logs => .ran ts logs

/-! ## SourceOpener (`inFile`, dd-multi.go lines 200-264)

`inFile` resolves the transfer's total length into `*totalOut` (initially
0, the `Transfer.Total` zero value) and wraps the opened source into a
bounded or unbounded reader.  The model covers the success path of
open/stat/seek/skip and records the pair (resolved total, stream bound),
where the bound is `some n` for a reader limited to exactly `n` bytes
(`io.LimitReader` / `io.NewSectionReader`) and `none` for an unbounded
reader handed back as-is.  All `int64` arithmetic wraps via `wrap64`. -/

/-- A source configuration as seen by `inFile`: whether the name was
empty (standard input), whether the named file stats as a regular file,
its stat size, and the transfer's block size, size limit, skip and
count values. -/
structure InCfg where
  isStdin : Bool
  isRegular : Bool
  statSize : Int
  bs : Int
  size : Int
  skip : Int
  count : Int
deriving DecidableEq

/-- `inFile` (dd-multi.go:201): resolved total length and stream bound. -/
def inFile (c : InCfg) : Int × Option Int :=
  if c.isStdin then
    if c.count ≠ maxInt64 then
      (wrap64 (c.count * c.bs), some (wrap64 (c.count * c.bs)))
    else if 0 < c.size then (c.size, some c.size)
    else (0, none)
  else
    if c.isRegular then
      if c.count ≠ maxInt64 then
        (wrap64 (c.count * c.bs), some (wrap64 (c.count * c.bs)))
      else if 0 < c.size then (c.size, some c.size)
      else (wrap64 (c.statSize - wrap64 (c.skip * c.bs)), none)
    else
      if c.count ≠ maxInt64 then
        (wrap64 (c.count * c.bs), some (wrap64 (c.count * c.bs)))
      else if 0 < c.size then (c.size, some c.size)
      else (0, none)

/-! ## CopyLoop (`dd`, dd-multi.go lines 176-198)

The copy loop is driven by the reader's successive `Read` results, each a
pair of a byte count and an optional error (`io.EOF` or another error),
and by the writer's successive `Write` outcomes (`wOk i` tells whether
the `i`-th write call succeeds).  `ddLoop` follows the Go loop: on
`n > 0` it writes `buf[:n]` (aborting on a write error) and then adds
`n` to `*bytesWritten`; then a `nil` error continues, `io.EOF` breaks
successfully, any other error aborts.  The returned trace records, per
iteration, the size of the successful write of that iteration (if any)
and the value of the `*bytesWritten` counter after the iteration. -/

/-- A read error: end of stream, or any other error. -/
inductive RErr where
  | eof
  | other
deriving DecidableEq

/-- One `r.Read(buf)` result: bytes read and optional error. -/
abbrev ReadEv := Nat × Option RErr

/-- The error returned by `dd`: the zero-buffer check, a write error, or
a non-EOF read error. -/
inductive DdError where
  | zeroBuf
  | writeErr
  | readErr
deriving DecidableEq

/-- Outcome of the loop: `success` (EOF break or nil return), `failure`,
or `pending` when the modelled event list ran out mid-loop. -/
inductive DdOutcome where
  | pending
  | success
  | failure (e : DdError)
deriving DecidableEq

/-- One loop iteration of the trace: the successful write issued in this
iteration (its byte count), if any, and the counter value after the
iteration. -/
structure Step where
  write : Option Nat
  counterAfter : Nat
deriving DecidableEq

/-- The loop of `dd` (dd-multi.go:181-196).  `acc` is the current value
of `*bytesWritten` and `widx` counts the write calls issued so far. -/
def ddLoop (wOk : Nat → Bool) : List ReadEv → Nat → Nat → List Step × Nat × DdOutcome
  | [], acc, _ => ([], acc, .pending)
  | (n, e) :: rest, acc, widx =>
    if 0 < n then
      if wOk widx then
        match e with
        | none =>
          let r := ddLoop wOk rest (acc + n) (widx + 1)
          (⟨some n, acc + n⟩ :: r.1, r.2)
        | some .eof => ([⟨some n, acc + n⟩], acc + n, .success)
        | some .other => ([⟨some n, acc + n⟩], acc + n, .failure .readErr)
      else ([], acc, .failure .writeErr)
    else
      match e with
      | none =>
        let r := ddLoop wOk rest acc widx
        (⟨none, acc⟩ :: r.1, r.2)
      | some .eof => ([], acc, .success)
      | some .other => ([], acc, .failure .readErr)

/-- `dd` (dd-multi.go:176): the zero-block-size check runs before any
read or write; otherwise the loop runs with the counter starting at 0. -/
def dd (inBufSize : Nat) (wOk : Nat → Bool) (evs : List ReadEv) :
    List Step × Nat × DdOutcome :=
  if inBufSize = 0 then ([], 0, .failure .zeroBuf)
  else ddLoop wOk evs 0 0

/-- The sizes of the successful writes recorded in a trace, in order. -/
def writesOf (steps : List Step) : List Nat :=
  steps.filterMap fun s => s.write

/-- The successive counter values recorded in a trace. -/
def countersOf (steps : List Step) : List Nat :=
  steps.map fun s => s.counterAfter

/-! ## ProgressRenderer (`printAll` / `computeETA`, dd-multi.go lines 522-607)

The renderer's float64 arithmetic is modelled exactly over `Rat`; Go's
`int(x)` conversion of a float to an int truncates toward zero, modelled
by `truncQ`, and `%02d` formatting is modelled by `pad2`/`intToChars`. -/

/-- Go `int(q)`: truncation toward zero. -/
def truncQ (q : Rat) : Int :=
  if q.num < 0 then -(((-q.num).toNat / q.den : Nat) : Int)
  else ((q.num.toNat / q.den : Nat) : Int)

/-- Go integer division (truncated), for positive divisors as used by the
`HH:MM:SS` formatting. -/
def tdivGo (a b : Int) : Int :=
  if a < 0 then -(((-a).toNat / b.toNat : Nat) : Int)
  else ((a.toNat / b.toNat : Nat) : Int)

/-- Go integer remainder paired with `tdivGo`. -/
def tmodGo (a b : Int) : Int := a - b * tdivGo a b

/-- The character of a decimal digit. -/
def digitChar (d : Nat) : Char := Char.ofNat (48 + d)

/-- Decimal digits of `n`, most significant first (empty for 0), with
enough fuel; used to model Go's `%d`. -/
def natDigitsAux : Nat → Nat → List Char
  | 0, _ => []
  | _ + 1, 0 => []
  | fuel + 1, n + 1 => natDigitsAux fuel ((n + 1) / 10) ++ [digitChar ((n + 1) % 10)]

/-- Decimal rendering of a natural number (empty for 0; always used
under `pad2`, which restores the `00` that `%02d` prints for 0). -/
def natToChars (n : Nat) : List Char := natDigitsAux n n

/-- Decimal rendering of an integer. -/
def intToChars (i : Int) : List Char :=
  if i < 0 then '-' :: natToChars (-i).toNat else natToChars i.toNat

/-- Go `%02d`: left-pad with zeros to width 2. -/
def pad2 (l : List Char) : List Char :=
  if l.length < 2 then List.replicate (2 - l.length) '0' ++ l else l

/-- The literal placeholder `"??:??:??"`. -/
def qmarks : List Char := ['?', '?', ':', '?', '?', ':', '?', '?']

/-- The `HH:MM:SS` rendering shared by the finished-timer branch of
`printAll` (dd-multi.go:559-562) and by `computeETA` (603-606):
`h = int(sec/3600)`, `m = (int(sec) % 3600) / 60`, `s = int(sec) % 60`,
each formatted `%02d` and joined with colons. -/
def hmsOf (sec : Rat) : List Char :=
  let e := truncQ sec
  let h := truncQ (sec / 3600)
  let m := tdivGo (tmodGo e 3600) 60
  let s := tmodGo e 60
  pad2 (intToChars h) ++ ':' :: (pad2 (intToChars m) ++ ':' :: pad2 (intToChars s))

/-- The rate computation of `printAll` (dd-multi.go:544-547):
`transferred / (1024*1024) / elapsed` MB/s, 0 when `elapsed ≤ 0`. -/
def rateOf (transferred : Int) (elapsed : Rat) : Rat :=
  if 0 < elapsed then (transferred : Rat) / (1024 * 1024) / elapsed else 0

/-- The percentage computation of `printAll` (dd-multi.go:548-554):
`transferred/total*100` clamped to 100 when `total > 0`, else 0. -/
def pctOf (transferred total : Int) : Rat :=
  if 0 < total then
    let p : Rat := (transferred : Rat) / (total : Rat) * 100
    if 100 < p then 100 else p
  else 0

/-- The filled-cell computation of `printAll` (dd-multi.go:568-572):
`int((pct/100) * 50)`, clamped to the bar width 50. -/
def filledOf (pct : Rat) : Int :=
  let f := truncQ (pct / 100 * 50)
  if 50 < f then 50 else f

/-- `computeETA` (dd-multi.go:593): the placeholder when the rate, the
total, or the remaining byte count is non-positive, otherwise remaining
MB divided by the rate rendered `HH:MM:SS`. -/
def computeETA (transferred total : Int) (elapsed rate : Rat) : List Char :=
  if rate ≤ 0 ∨ total ≤ 0 ∨ (total : Rat) ≤ (transferred : Rat) then qmarks
  else
    let remainBytes : Rat := ((total - transferred : Int) : Rat)
    let remainMB := remainBytes / (1024 * 1024)
    let remainSec := remainMB / rate
    if remainSec < 0 then qmarks
    else hmsOf remainSec

/-- The timer-string selection of `printAll` (dd-multi.go:556-565):
elapsed time `HH:MM:SS` once finished at 100%, otherwise `computeETA`. -/
def timerStr (transferred total : Int) (elapsed rate : Rat) (isFinished : Bool)
    (pct : Rat) : List Char :=
  if isFinished = true ∧ 100 ≤ pct then hmsOf elapsed
  else computeETA transferred total elapsed rate

/-! ## Lock discipline on the mutable `Transfer` fields (C9)

The mutable fields of a `Transfer` record and the sequence of lock and
field-access operations each function performs on one transfer's record,
transcribed from the source.  `guarded` checks that every field access
happens while the transfer's mutex is held. -/

/-- The fields of `Transfer` shared between a worker and the renderer. -/
inductive FieldId where
  | transferred
  | total
  | finished
  | endTime
  | startTime
deriving DecidableEq

/-- An atomic operation on one transfer's record: acquiring or releasing
its mutex, or accessing one of its fields. -/
inductive LockEv where
  | lock
  | unlock
  | readF (f : FieldId)
  | writeF (f : FieldId)
deriving DecidableEq

/-- `*bytesWritten += int64(n)` (dd-multi.go:188), executed by the worker
once per block inside the copy loop: a read-modify-write of
`Transfer.Transferred`, with no locking around it. -/
def ddIterEvents : List LockEv := [.readF .transferred, .writeF .transferred]

/-- `*totalOut = ...` in `inFile` (dd-multi.go:211/215/236/239/243/257/260),
executed by the worker: a write of `Transfer.Total`, with no locking. -/
def inFileEvents : List LockEv := [.writeF .total]

/-- The completion marking in the worker goroutine (dd-multi.go:428-431). -/
def workerFinishEvents : List LockEv :=
  [.lock, .writeF .finished, .writeF .endTime, .unlock]

/-- The snapshot taken by `printAll` (dd-multi.go:529-535). -/
def printAllSnapshotEvents : List LockEv :=
  [.lock, .readF .transferred, .readF .total, .readF .finished,
   .readF .startTime, .readF .endTime, .unlock]

/-- The finished-flag poll of `startProgress` (dd-multi.go:503-505). -/
def tickCheckEvents : List LockEv :=
  [.lock, .readF .finished, .unlock]

/-- The worker's whole access sequence on its own transfer record for a
run whose copy loop performs `iters` counted iterations:
`inFile`'s total write, the loop's counter updates, then the completion
marking. -/
def workerEvents (iters : Nat) : List LockEv :=
  inFileEvents ++ (List.replicate iters ddIterEvents).flatten ++ workerFinishEvents

/-- Scan of an access sequence tracking the mutex hold depth: every
field access must occur at positive depth. -/
def guardedFrom (depth : Nat) : List LockEv → Bool
  | [] => true
  | .lock :: r => guardedFrom (depth + 1) r
  | .unlock :: r => guardedFrom (depth - 1) r
  | .readF _ :: r => decide (0 < depth) && guardedFrom depth r
  | .writeF _ :: r => decide (0 < depth) && guardedFrom depth r

/-- An access sequence respects the claim's lock discipline if every
read and write of a mutable field happens under the mutex. -/
def guarded (es : List LockEv) : Bool := guardedFrom 0 es

/-! ## Theorems -/

/-! ### C3 — block-size parsing -/

theorem parseDigitsAux_all_digits (cs : List Char) :
    ∀ acc : Nat, (∀ c ∈ cs, 48 ≤ c.toNat ∧ c.toNat ≤ 57) →
      parseDigitsAux acc cs =
        some (cs.foldl (fun a c => a * 10 + (c.toNat - 48)) acc) := by
  induction cs with
  | nil => intro acc _; rfl
  | cons c r ih =>
    intro acc h
    have hc := h c (by simp)
    simp only [parseDigitsAux, if_pos hc, List.foldl_cons]
    exact ih _ (fun x hx => h x (by simp [hx]))

theorem parseDigits_all_digits (cs : List Char) (hne : cs ≠ [])
    (h : ∀ c ∈ cs, 48 ≤ c.toNat ∧ c.toNat ≤ 57) :
    parseDigits cs = some (digitsToNat cs) := by
  cases cs with
  | nil => exact absurd rfl hne
  | cons c r =>
    show parseDigitsAux 0 (c :: r) = _
    exact parseDigitsAux_all_digits (c :: r) 0 h

theorem parseInt64_digits (cs : List Char) (hne : cs ≠ [])
    (h : ∀ c ∈ cs, 48 ≤ c.toNat ∧ c.toNat ≤ 57)
    (hle : (digitsToNat cs : Int) ≤ maxInt64) :
    parseInt64 cs = some ((digitsToNat cs : Int)) := by
  cases cs with
  | nil => exact absurd rfl hne
  | cons c r =>
    have hc := h c (by simp)
    have hplus : ¬(c = '+') := by rintro rfl; exact absurd hc (by decide)
    have hminus : ¬(c = '-') := by rintro rfl; exact absurd hc (by decide)
    show (if c = '+' then _ else if c = '-' then _ else _) = _
    rw [if_neg hplus, if_neg hminus,
      parseDigits_all_digits (c :: r) (by simp) h]
    simp [hle]

theorem stripUnit_concat (ds : List Char) (u : Char) :
    stripUnit (ds ++ [u]) =
      (if u = 'k' ∨ u = 'K' then ((1024 : Int), ds)
       else if u = 'M' then (1024 * 1024, ds)
       else if u = 'G' then (1024 * 1024 * 1024, ds)
       else if u = 'b' ∨ u = 'B' then (512, ds)
       else (1, ds ++ [u])) := by
  simp only [stripUnit, List.getLast?_concat, List.dropLast_concat]

theorem stripUnit_digits (ds : List Char)
    (hdig : ∀ c ∈ ds, 48 ≤ c.toNat ∧ c.toNat ≤ 57) :
    stripUnit ds = (1, ds) := by
  unfold stripUnit
  cases h : ds.getLast? with
  | none => rfl
  | some u =>
    have hu := hdig u (List.mem_of_mem_getLast? h)
    have h1 : ¬(u = 'k' ∨ u = 'K') := by rintro (rfl | rfl) <;> exact absurd hu (by decide)
    have h2 : ¬(u = 'M') := by rintro rfl; exact absurd hu (by decide)
    have h3 : ¬(u = 'G') := by rintro rfl; exact absurd hu (by decide)
    have h4 : ¬(u = 'b' ∨ u = 'B') := by rintro (rfl | rfl) <;> exact absurd hu (by decide)
    simp [h1, h2, h3, h4]

theorem parseBlockSize_concat_unit (ds : List Char) (d : Int) (u : Char)
    (mult : Int) (hmult : 0 < mult)
    (hstrip : stripUnit (ds ++ [u]) = (mult, ds))
    (hne : ds ≠ []) (hdig : ∀ c ∈ ds, 48 ≤ c.toNat ∧ c.toNat ≤ 57)
    (hle : (digitsToNat ds : Int) ≤ maxInt64)
    (hfit : (digitsToNat ds : Int) * mult ≤ maxInt64) :
    parseBlockSize (ds ++ [u]) d = some ((digitsToNat ds : Int) * mult) := by
  have hne2 : ¬(ds ++ [u] = []) := by simp
  have h0 : (0 : Int) ≤ (digitsToNat ds : Int) * mult := by positivity
  unfold parseBlockSize
  rw [if_neg hne2, hstrip]
  show (match parseInt64 ds with
    | none => none
    | some v => some (wrap64 (v * mult))) = some ((digitsToNat ds : Int) * mult)
  rw [parseInt64_digits ds hne hdig hle]
  show some (wrap64 ((digitsToNat ds : Int) * mult)) = _
  rw [wrap64_eq_of_fits (by omega) (by unfold maxInt64 at hfit; omega)]

/-- Claim C3 (amended): for every non-empty block-size token
`<digits><unit>` whose digit value and whose product with the unit
multiplier both fit in `int64`, the parsed byte count is the digits times
1024 for `k`/`K`, 1024² for `M`, 1024³ for `G`, 512 for `b`/`B`; a
digit-only token yields the digits times 1; an empty token yields the
caller-supplied default; a token whose numeric portion fails to parse is
a fatal configuration error (`none`).  (Without the fits-in-int64 side
conditions the product wraps modulo 2^64, see the counterexample.) -/
theorem parseBlockSize_units (ds : List Char) (d : Int)
    (hdig : ∀ c ∈ ds, 48 ≤ c.toNat ∧ c.toNat ≤ 57) (hne : ds ≠ [])
    (hle : (digitsToNat ds : Int) ≤ maxInt64) :
    ((digitsToNat ds : Int) * 1024 ≤ maxInt64 →
       parseBlockSize (ds ++ ['k']) d = some ((digitsToNat ds : Int) * 1024) ∧
       parseBlockSize (ds ++ ['K']) d = some ((digitsToNat ds : Int) * 1024)) ∧
    ((digitsToNat ds : Int) * (1024 * 1024) ≤ maxInt64 →
       parseBlockSize (ds ++ ['M']) d = some ((digitsToNat ds : Int) * (1024 * 1024))) ∧
    ((digitsToNat ds : Int) * (1024 * 1024 * 1024) ≤ maxInt64 →
       parseBlockSize (ds ++ ['G']) d =
         some ((digitsToNat ds : Int) * (1024 * 1024 * 1024))) ∧
    ((digitsToNat ds : Int) * 512 ≤ maxInt64 →
       parseBlockSize (ds ++ ['b']) d = some ((digitsToNat ds : Int) * 512) ∧
       parseBlockSize (ds ++ ['B']) d = some ((digitsToNat ds : Int) * 512)) ∧
    parseBlockSize ds d = some ((digitsToNat ds : Int)) ∧
    parseBlockSize [] d = some d ∧
    (∀ cs : List Char, cs ≠ [] → parseInt64 (stripUnit cs).2 = none →
       parseBlockSize cs d = none) := by
  have hsk : stripUnit (ds ++ ['k']) = ((1024 : Int), ds) := by
    rw [stripUnit_concat]; exact if_pos (Or.inl rfl)
  have hsK : stripUnit (ds ++ ['K']) = ((1024 : Int), ds) := by
    rw [stripUnit_concat]; exact if_pos (Or.inr rfl)
  have hsM : stripUnit (ds ++ ['M']) = ((1024 * 1024 : Int), ds) := by
    rw [stripUnit_concat, if_neg (by decide)]; exact if_pos rfl
  have hsG : stripUnit (ds ++ ['G']) = ((1024 * 1024 * 1024 : Int), ds) := by
    rw [stripUnit_concat, if_neg (by decide), if_neg (by decide)]; exact if_pos rfl
  have hsb : stripUnit (ds ++ ['b']) = ((512 : Int), ds) := by
    rw [stripUnit_concat, if_neg (by decide), if_neg (by decide), if_neg (by decide)]
    exact if_pos (Or.inl rfl)
  have hsB : stripUnit (ds ++ ['B']) = ((512 : Int), ds) := by
    rw [stripUnit_concat, if_neg (by decide), if_neg (by decide), if_neg (by decide)]
    exact if_pos (Or.inr rfl)
  refine ⟨fun hf => ⟨?_, ?_⟩, fun hf => ?_, fun hf => ?_, fun hf => ⟨?_, ?_⟩, ?_, ?_, ?_⟩
  · exact parseBlockSize_concat_unit ds d 'k' 1024 (by decide) hsk hne hdig hle hf
  · exact parseBlockSize_concat_unit ds d 'K' 1024 (by decide) hsK hne hdig hle hf
  · exact parseBlockSize_concat_unit ds d 'M' (1024 * 1024) (by decide) hsM hne hdig hle hf
  · exact parseBlockSize_concat_unit ds d 'G' (1024 * 1024 * 1024) (by decide) hsG hne hdig hle hf
  · exact parseBlockSize_concat_unit ds d 'b' 512 (by decide) hsb hne hdig hle hf
  · exact parseBlockSize_concat_unit ds d 'B' 512 (by decide) hsB hne hdig hle hf
  · have h0 : (0 : Int) ≤ (digitsToNat ds : Int) := by positivity
    unfold parseBlockSize
    rw [if_neg hne, stripUnit_digits ds hdig]
    show (match parseInt64 ds with
      | none => none
      | some v => some (wrap64 (v * 1))) = some ((digitsToNat ds : Int))
    rw [parseInt64_digits ds hne hdig hle]
    show some (wrap64 ((digitsToNat ds : Int) * 1)) = _
    rw [mul_one, wrap64_eq_of_fits (by omega) (by unfold maxInt64 at hle; omega)]
  · simp [parseBlockSize]
  · intro cs hcs hnone
    unfold parseBlockSize
    rw [if_neg hcs, hnone]

/-- Claim C3 counterexample: for the token `"9223372036854775807k"` the
digits (= `math.MaxInt64`) parse, but the `int64` product with 1024
wraps: the code returns −1024, not digits × 1024. -/
theorem parseBlockSize_overflow_cex :
    digitsToNat ['9', '2', '2', '3', '3', '7', '2', '0', '3', '6', '8', '5',
        '4', '7', '7', '5', '8', '0', '7'] = 9223372036854775807 ∧
    parseBlockSize ['9', '2', '2', '3', '3', '7', '2', '0', '3', '6', '8', '5',
        '4', '7', '7', '5', '8', '0', '7', 'k'] 512 = some (-1024) ∧
    (9223372036854775807 : Int) * 1024 ≠ -1024 := by
  refine ⟨by decide, by decide, by decide⟩

/-- Witness for `parseBlockSize_units` at the token `"10k"`. -/
theorem parseBlockSize_units_witness :
    parseBlockSize ['1', '0', 'k'] 512 = some 10240 := by
  have h := (parseBlockSize_units ['1', '0'] 512 (by decide) (by decide)
    (by decide)).1 (by decide)
  simpa using h.1

/-! ### C10 — the mode bitmask never contains the truncate bit -/

theorem applyConvTok_inv (st : Except ConvErr Nat) (t : List Char)
    (h : ∀ f, st = .ok f → f = 0 ∨ f = O_SYNC) :
    ∀ g, applyConvTok st t = .ok g → g = 0 ∨ g = O_SYNC := by
  intro g hg
  cases st with
  | error e => simp [applyConvTok] at hg
  | ok f =>
    unfold applyConvTok convMapLookup at hg
    by_cases ht : t = notruncTok
    · rw [if_pos ht] at hg
      simp only [Except.ok.injEq] at hg
      rcases h f rfl with rfl | rfl
      · left; rw [← hg]; decide
      · right; rw [← hg]; decide
    · rw [if_neg ht] at hg
      simp at hg

theorem applyOflagTok_inv (st : Except ConvErr Nat) (t : List Char)
    (h : ∀ f, st = .ok f → f = 0 ∨ f = O_SYNC) :
    ∀ g, applyOflagTok st t = .ok g → g = 0 ∨ g = O_SYNC := by
  intro g hg
  cases st with
  | error e => simp [applyOflagTok] at hg
  | ok f =>
    unfold applyOflagTok flagMapLookup at hg
    by_cases ht : t = syncTok
    · rw [if_pos ht] at hg
      simp only [Except.ok.injEq] at hg
      rcases h f rfl with rfl | rfl
      · right; rw [← hg]; decide
      · right; rw [← hg]; decide
    · rw [if_neg ht] at hg
      simp at hg

theorem foldl_applyConvTok_inv (l : List (List Char)) :
    ∀ st : Except ConvErr Nat, (∀ f, st = .ok f → f = 0 ∨ f = O_SYNC) →
      ∀ g, l.foldl applyConvTok st = .ok g → g = 0 ∨ g = O_SYNC := by
  induction l with
  | nil => intro st h g hg; exact h g hg
  | cons t r ih =>
    intro st h g hg
    exact ih (applyConvTok st t) (applyConvTok_inv st t h) g hg

theorem foldl_applyOflagTok_inv (l : List (List Char)) :
    ∀ st : Except ConvErr Nat, (∀ f, st = .ok f → f = 0 ∨ f = O_SYNC) →
      ∀ g, l.foldl applyOflagTok st = .ok g → g = 0 ∨ g = O_SYNC := by
  induction l with
  | nil => intro st h g hg; exact h g hg
  | cons t r ih =>
    intro st h g hg
    exact ih (applyOflagTok st t) (applyOflagTok_inv st t h) g hg

theorem parseConvOflag_flags (convStr oflagStr : List Char) (f : Nat)
    (h : parseConvOflag convStr oflagStr = .ok f) : f = 0 ∨ f = O_SYNC := by
  have hst1 : ∀ g, (if convStr = noneTok then (Except.ok 0 : Except ConvErr Nat)
      else (splitComma convStr).foldl applyConvTok (.ok 0)) = .ok g →
      g = 0 ∨ g = O_SYNC := by
    by_cases hc : convStr = noneTok
    · rw [if_pos hc]
      intro g hg
      simp only [Except.ok.injEq] at hg
      left; omega
    · rw [if_neg hc]
      exact fun g hg => foldl_applyConvTok_inv _ (.ok 0)
        (fun f0 h0 => by simp only [Except.ok.injEq] at h0; left; omega) g hg
  simp only [parseConvOflag] at h
  by_cases ho : oflagStr = noneTok
  · rw [if_pos ho] at h
    exact hst1 f h
  · rw [if_neg ho] at h
    exact foldl_applyOflagTok_inv _ _ hst1 f h

/-- Claim C10: every bitmask the conv/oflag parser accepts is 0 or
`O_SYNC` — the truncate bit is never set — so the open mode computed by
`outFile` carries no `O_TRUNC`, and `conv=notrunc` produces the same
result as `conv=none` for every oflag list. -/
theorem mode_no_trunc (convStr oflagStr : List Char) (f : Nat)
    (h : parseConvOflag convStr oflagStr = .ok f) :
    (f = 0 ∨ f = O_SYNC) ∧ f &&& O_TRUNC = 0 ∧ outFilePerm f &&& O_TRUNC = 0 ∧
    (∀ o : List Char, parseConvOflag notruncTok o = parseConvOflag noneTok o) := by
  have hf := parseConvOflag_flags convStr oflagStr f h
  refine ⟨hf, ?_, ?_, ?_⟩
  · rcases hf with rfl | rfl <;> decide
  · rcases hf with rfl | rfl <;> decide
  · intro o
    simp only [parseConvOflag]
    have e1 : (if notruncTok = noneTok then (Except.ok 0 : Except ConvErr Nat)
        else (splitComma notruncTok).foldl applyConvTok (.ok 0)) = .ok 0 := by decide
    have e2 : (if noneTok = noneTok then (Except.ok 0 : Except ConvErr Nat)
        else (splitComma noneTok).foldl applyConvTok (.ok 0)) = .ok 0 := by decide
    rw [e1]
    simp

/-- Witness for `mode_no_trunc` at `conv=none`, `oflag=sync`. -/
theorem mode_no_trunc_witness :
    O_SYNC &&& O_TRUNC = 0 ∧ outFilePerm O_SYNC &&& O_TRUNC = 0 := by
  exact ⟨(mode_no_trunc noneTok syncTok O_SYNC (by decide)).2.1,
    (mode_no_trunc noneTok syncTok O_SYNC (by decide)).2.2.1⟩

/-! ### C4 / C6 — error handling of unrecognized conv/oflag tokens -/

/-- Claim C4 (amended): an unrecognized conv/oflag token in a flag set
produces an error naming the token; `run` logs it with the transfer
number and skips only that flag set, the building loop continuing with
the remaining sets; the process terminates before any transfer starts
only when no flag set at all is accepted (usage exit). -/
theorem conv_error_skips (idx : Nat) (c : RawCfg) (rest : List RawCfg)
    (hname : ¬(c.inName = [] ∧ c.outName = []))
    (b : Int) (hbs : parseBlockSize c.bsStr 512 = some b)
    (e : ConvErr) (he : parseConvOflag c.convStr c.oflagStr = .error e) :
    buildAux idx (c :: rest) =
      (match buildAux (idx + 1) rest with
       | .fatalBs j => .fatalBs j
       | .built ts logs => .built ts ((idx, e) :: logs)) ∧
    (∀ (n : Int) (cfgs : List RawCfg) (logs : List (Nat × ConvErr)),
       buildAux 1 cfgs = .built [] logs → runModel n cfgs = .usageExit) := by
  constructor
  · simp only [buildAux, if_neg hname, hbs, he]
  · intro n cfgs logs hbuild
    unfold runModel
    by_cases hn : n ≤ 0 ∨ 50 < n
    · rw [if_pos hn]
    · rw [if_neg hn, hbuild]

/-- Witness for `conv_error_skips`: a single flag set with the unknown
conversion token `x` is logged as transfer #1 and accepted nowhere. -/
theorem conv_error_skips_witness :
    buildAux 1 [⟨['a'], ['b'], [], ['x'], noneTok, 1, 0, 0, 0⟩] =
      .built [] [(1, .unknownConv ['x'])] := by
  have h := (conv_error_skips 1 ⟨['a'], ['b'], [], ['x'], noneTok, 1, 0, 0, 0⟩ []
    (by decide) 512 (by decide) (.unknownConv ['x']) (by decide)).1
  simpa using h

/-- Claim C4 counterexample: an invocation with two flag sets, the second
carrying the unrecognized conversion token `x`, is not terminated before
transfers start: `run` reaches worker launch with the first transfer,
the bad token being only logged. -/
theorem conv_error_not_fatal_cex :
    parseConvOflag ['x'] noneTok = .error (.unknownConv ['x']) ∧
    runModel 2 [⟨['i', '1'], ['o', '1'], [], noneTok, noneTok, 1, 0, 0, 0⟩,
        ⟨['i', '2'], ['o', '2'], [], ['x'], noneTok, 1, 0, 0, 0⟩] =
      .ran [mkTransfer ⟨['i', '1'], ['o', '1'], [], noneTok, noneTok, 1, 0, 0, 0⟩ 512 0]
        [(2, .unknownConv ['x'])] := by
  exact ⟨by decide, by decide⟩

/-- Claim C6: in every invocation with two configured transfers where
exactly one has an invalid conversion token — whichever of the two
positions the invalid one occupies — the invalid one is only logged
(with an error naming the token) and the other still runs: `run`
reaches worker launch with exactly the valid transfer, rather than
terminating the process early. -/
theorem invalid_conv_isolated (c1 c2 : RawCfg)
    (h1n : ¬(c1.inName = [] ∧ c1.outName = []))
    (h2n : ¬(c2.inName = [] ∧ c2.outName = []))
    (b1 b2 : Int)
    (hb1 : parseBlockSize c1.bsStr 512 = some b1)
    (hb2 : parseBlockSize c2.bsStr 512 = some b2) :
    (∀ (f1 : Nat) (e : ConvErr),
       parseConvOflag c1.convStr c1.oflagStr = .ok f1 →
       parseConvOflag c2.convStr c2.oflagStr = .error e →
       runModel 2 [c1, c2] = .ran [mkTransfer c1 b1 f1] [(2, e)]) ∧
    (∀ (e : ConvErr) (f2 : Nat),
       parseConvOflag c1.convStr c1.oflagStr = .error e →
       parseConvOflag c2.convStr c2.oflagStr = .ok f2 →
       runModel 2 [c1, c2] = .ran [mkTransfer c2 b2 f2] [(1, e)]) := by
  constructor
  · intro f1 e hc1 hc2
    unfold runModel
    rw [if_neg (by decide)]
    have hb : buildAux 1 [c1, c2] = .built [mkTransfer c1 b1 f1] [(2, e)] := by
      simp only [buildAux, if_neg h1n, if_neg h2n, hb1, hb2, hc1, hc2]
    rw [hb]
  · intro e f2 hc1 hc2
    unfold runModel
    rw [if_neg (by decide)]
    have hb : buildAux 1 [c1, c2] = .built [mkTransfer c2 b2 f2] [(1, e)] := by
      simp only [buildAux, if_neg h1n, if_neg h2n, hb1, hb2, hc1, hc2]
    rw [hb]

/-- Witness for `invalid_conv_isolated`, in both arrangements: the
transfer with the unknown conversion token `z` is only logged — whether
it is the first or the second of the two — and the valid transfer is
launched. -/
theorem invalid_conv_isolated_witness :
    runModel 2 [⟨['r'], ['s'], [], ['z'], noneTok, 7, 0, 0, 0⟩,
        ⟨['p'], ['q'], ['1', 'k'], noneTok, syncTok, 7, 0, 0, 0⟩] =
      .ran [mkTransfer ⟨['p'], ['q'], ['1', 'k'], noneTok, syncTok, 7, 0, 0, 0⟩ 1024 O_SYNC]
        [(1, .unknownConv ['z'])] ∧
    runModel 2 [⟨['p'], ['q'], ['1', 'k'], noneTok, syncTok, 7, 0, 0, 0⟩,
        ⟨['r'], ['s'], [], ['z'], noneTok, 7, 0, 0, 0⟩] =
      .ran [mkTransfer ⟨['p'], ['q'], ['1', 'k'], noneTok, syncTok, 7, 0, 0, 0⟩ 1024 O_SYNC]
        [(2, .unknownConv ['z'])] := by
  constructor
  · exact (invalid_conv_isolated _ _ (by decide) (by decide) 512 1024 (by decide)
      (by decide)).2 (.unknownConv ['z']) O_SYNC (by decide) (by decide)
  · exact (invalid_conv_isolated _ _ (by decide) (by decide) 1024 512 (by decide)
      (by decide)).1 O_SYNC (.unknownConv ['z']) (by decide) (by decide)

/-! ### C5 — block size zero -/

/-- Claim C5 (amended): a transfer configured with block size zero passes
configuration (it is accepted and its worker launched) and is rejected
by the copy loop itself, immediately and before any read or write: the
result is independent of the source events and the sink, records no
write and zero transferred bytes, and carries the dedicated zero-buffer
error, distinct from the read/write errors; it aborts only that
transfer. -/
theorem dd_zero_bs (wOk : Nat → Bool) (evs : List ReadEv) :
    dd 0 wOk evs = ([], 0, .failure .zeroBuf) ∧
    DdError.zeroBuf ≠ .writeErr ∧ DdError.zeroBuf ≠ .readErr := by
  exact ⟨rfl, by decide, by decide⟩

/-- Claim C5 counterexample: a transfer whose block-size token is `"0"`
is not rejected at configuration time — `run` accepts it (block size 0)
and launches its worker, so the zero block size is not a fatal
configuration error terminating the process before transfers start. -/
theorem zero_bs_accepted_cex :
    runModel 1 [⟨['a'], ['b'], ['0'], noneTok, noneTok, 1, 0, 0, 0⟩] =
      .ran [mkTransfer ⟨['a'], ['b'], ['0'], noneTok, noneTok, 1, 0, 0, 0⟩ 0 0] [] ∧
    (mkTransfer ⟨['a'], ['b'], ['0'], noneTok, noneTok, 1, 0, 0, 0⟩ 0 0).bs = 0 := by
  exact ⟨by decide, by decide⟩

/-! ### C1 — resolution of total length and stream bound -/

/-- Claim C1 (amended): `inFile` resolves length and bound with the fixed
precedence — a finite count limit gives length `count × bs` with the
stream limited to exactly that many bytes; else a positive size limit
gives that length and bound; else a seekable regular file gives
`statSize − skip × bs` with an unbounded stream, and standard input or a
non-seekable source gives 0 (unknown) with an unbounded stream — where
each stated product/difference is subject to fitting in `int64`
(otherwise the value the code computes wraps modulo 2^64, see the
counterexample). -/
theorem inFile_resolution (c : InCfg) :
    (c.count ≠ maxInt64 → -(2 ^ 63) ≤ c.count * c.bs → c.count * c.bs ≤ maxInt64 →
       inFile c = (c.count * c.bs, some (c.count * c.bs))) ∧
    (c.count = maxInt64 → 0 < c.size → inFile c = (c.size, some c.size)) ∧
    (c.count = maxInt64 → ¬(0 < c.size) → c.isStdin = false → c.isRegular = true →
       -(2 ^ 63) ≤ c.skip * c.bs → c.skip * c.bs ≤ maxInt64 →
       -(2 ^ 63) ≤ c.statSize - c.skip * c.bs → c.statSize - c.skip * c.bs ≤ maxInt64 →
       inFile c = (c.statSize - c.skip * c.bs, none)) ∧
    (c.count = maxInt64 → ¬(0 < c.size) → (c.isStdin = true ∨ c.isRegular = false) →
       inFile c = (0, none)) := by
  refine ⟨?_, ?_, ?_, ?_⟩
  · intro hc h1 h2
    have hw : wrap64 (c.count * c.bs) = c.count * c.bs :=
      wrap64_eq_of_fits h1 (by unfold maxInt64 at h2; omega)
    unfold inFile
    by_cases hs : c.isStdin
    · rw [if_pos hs, if_pos hc, hw]
    · rw [if_neg hs]
      by_cases hr : c.isRegular
      · rw [if_pos hr, if_pos hc, hw]
      · rw [if_neg hr, if_pos hc, hw]
  · intro hc hsz
    have hnc : ¬(c.count ≠ maxInt64) := fun h => h hc
    unfold inFile
    by_cases hs : c.isStdin
    · rw [if_pos hs, if_neg hnc, if_pos hsz]
    · rw [if_neg hs]
      by_cases hr : c.isRegular
      · rw [if_pos hr, if_neg hnc, if_pos hsz]
      · rw [if_neg hr, if_neg hnc, if_pos hsz]
  · intro hc hsz hs hr h1 h2 h3 h4
    have hnc : ¬(c.count ≠ maxInt64) := fun h => h hc
    have hw1 : wrap64 (c.skip * c.bs) = c.skip * c.bs :=
      wrap64_eq_of_fits h1 (by unfold maxInt64 at h2; omega)
    unfold inFile
    rw [if_neg (by simp [hs]), if_pos (by simp [hr]), if_neg hnc, if_neg hsz, hw1,
      wrap64_eq_of_fits h3 (by unfold maxInt64 at h4; omega)]
  · intro hc hsz hor
    have hnc : ¬(c.count ≠ maxInt64) := fun h => h hc
    unfold inFile
    rcases hor with hs | hr
    · rw [if_pos (by simp [hs]), if_neg hnc, if_neg hsz]
    · by_cases hs : c.isStdin
      · rw [if_pos hs, if_neg hnc, if_neg hsz]
      · rw [if_neg hs, if_neg (by simp [hr]), if_neg hnc, if_neg hsz]

/-- Witness for `inFile_resolution`: the spec's own scenario — a
2048-byte regular file, block size 512, skip 2, no limits — resolves to
1024 remaining bytes with an unbounded stream. -/
theorem inFile_resolution_witness :
    inFile ⟨false, true, 2048, 512, 0, 2, maxInt64⟩ = (1024, none) := by
  have h := (inFile_resolution ⟨false, true, 2048, 512, 0, 2, maxInt64⟩).2.2.1
    rfl (by decide) rfl rfl (by decide) (by decide) (by decide) (by decide)
  simpa using h

/-- Claim C1 counterexample: with count = 2^62 and block size 4 the
`int64` product wraps to 0, so the resolved length is 0 and the stream
is limited to 0 bytes — not to count × block size = 2^64. -/
theorem inFile_count_overflow_cex :
    inFile ⟨true, false, 0, 4, 0, 0, 4611686018427387904⟩ = (0, some 0) ∧
    (4611686018427387904 : Int) * 4 ≠ 0 := by
  exact ⟨by decide, by decide⟩

/-! ### C2 — the copy loop's counter discipline -/

theorem ddLoop_nil (wOk : Nat → Bool) (acc widx : Nat) :
    ddLoop wOk [] acc widx = ([], acc, .pending) := rfl

theorem ddLoop_zero_none (wOk : Nat → Bool) (rest : List ReadEv) (acc widx : Nat) :
    ddLoop wOk ((0, none) :: rest) acc widx =
      (⟨none, acc⟩ :: (ddLoop wOk rest acc widx).1, (ddLoop wOk rest acc widx).2) := rfl

theorem ddLoop_zero_eof (wOk : Nat → Bool) (rest : List ReadEv) (acc widx : Nat) :
    ddLoop wOk ((0, some .eof) :: rest) acc widx = ([], acc, .success) := rfl

theorem ddLoop_zero_other (wOk : Nat → Bool) (rest : List ReadEv) (acc widx : Nat) :
    ddLoop wOk ((0, some .other) :: rest) acc widx = ([], acc, .failure .readErr) := rfl

theorem ddLoop_pos_wfail (wOk : Nat → Bool) (rest : List ReadEv) (acc widx n : Nat)
    (e : Option RErr) (hn : 0 < n) (hw : wOk widx = false) :
    ddLoop wOk ((n, e) :: rest) acc widx = ([], acc, .failure .writeErr) := by
  cases e with
  | none => simp [ddLoop, hn, hw]
  | some re => cases re <;> simp [ddLoop, hn, hw]

theorem ddLoop_pos_ok_none (wOk : Nat → Bool) (rest : List ReadEv) (acc widx n : Nat)
    (hn : 0 < n) (hw : wOk widx = true) :
    ddLoop wOk ((n, none) :: rest) acc widx =
      (⟨some n, acc + n⟩ :: (ddLoop wOk rest (acc + n) (widx + 1)).1,
       (ddLoop wOk rest (acc + n) (widx + 1)).2) := by
  simp [ddLoop, hn, hw]

theorem ddLoop_pos_ok_eof (wOk : Nat → Bool) (rest : List ReadEv) (acc widx n : Nat)
    (hn : 0 < n) (hw : wOk widx = true) :
    ddLoop wOk ((n, some .eof) :: rest) acc widx =
      ([⟨some n, acc + n⟩], acc + n, .success) := by
  simp [ddLoop, hn, hw]

theorem ddLoop_pos_ok_other (wOk : Nat → Bool) (rest : List ReadEv) (acc widx n : Nat)
    (hn : 0 < n) (hw : wOk widx = true) :
    ddLoop wOk ((n, some .other) :: rest) acc widx =
      ([⟨some n, acc + n⟩], acc + n, .failure .readErr) := by
  simp [ddLoop, hn, hw]

theorem ddLoop_counter (wOk : Nat → Bool) :
    ∀ (evs : List ReadEv) (acc widx : Nat),
      (ddLoop wOk evs acc widx).2.1 =
        acc + (writesOf (ddLoop wOk evs acc widx).1).sum := by
  intro evs
  induction evs with
  | nil => intro acc widx; simp [ddLoop_nil, writesOf]
  | cons ev rest ih =>
    intro acc widx
    obtain ⟨n, e⟩ := ev
    by_cases hn : 0 < n
    · cases hwv : wOk widx with
      | true =>
        cases e with
        | none =>
          rw [ddLoop_pos_ok_none wOk rest acc widx n hn hwv]
          simp only [writesOf, List.filterMap_cons]
          rw [ih (acc + n) (widx + 1)]
          simp [writesOf]
          omega
        | some re =>
          cases re with
          | eof =>
            rw [ddLoop_pos_ok_eof wOk rest acc widx n hn hwv]
            simp [writesOf]
          | other =>
            rw [ddLoop_pos_ok_other wOk rest acc widx n hn hwv]
            simp [writesOf]
      | false =>
        rw [ddLoop_pos_wfail wOk rest acc widx n e hn hwv]
        simp [writesOf]
    · have hz : n = 0 := by omega
      subst hz
      cases e with
      | none =>
        rw [ddLoop_zero_none wOk rest acc widx]
        simp only [writesOf, List.filterMap_cons]
        rw [ih acc widx]
        simp [writesOf]
      | some re =>
        cases re with
        | eof => rw [ddLoop_zero_eof wOk rest acc widx]; simp [writesOf]
        | other => rw [ddLoop_zero_other wOk rest acc widx]; simp [writesOf]

theorem ddLoop_counter_at (wOk : Nat → Bool) :
    ∀ (evs : List ReadEv) (acc widx i x : Nat),
      (countersOf (ddLoop wOk evs acc widx).1)[i]? = some x →
      x = acc + (writesOf ((ddLoop wOk evs acc widx).1.take (i + 1))).sum := by
  intro evs
  induction evs with
  | nil => intro acc widx i x h; simp [ddLoop_nil, countersOf] at h
  | cons ev rest ih =>
    intro acc widx i x h
    obtain ⟨n, e⟩ := ev
    by_cases hn : 0 < n
    · cases hwv : wOk widx with
      | true =>
        cases e with
        | none =>
          rw [ddLoop_pos_ok_none wOk rest acc widx n hn hwv] at h ⊢
          cases i with
          | zero =>
            simp [countersOf] at h
            simp [writesOf]
            omega
          | succ j =>
            simp only [countersOf, List.map_cons, List.getElem?_cons_succ] at h
            have hx := ih (acc + n) (widx + 1) j x h
            simp only [List.take_succ_cons, writesOf, List.filterMap_cons,
              List.sum_cons]
            unfold writesOf at hx
            omega
        | some re =>
          cases re with
          | eof =>
            rw [ddLoop_pos_ok_eof wOk rest acc widx n hn hwv] at h ⊢
            cases i with
            | zero => simp [countersOf] at h; simp [writesOf]; omega
            | succ j => simp [countersOf] at h
          | other =>
            rw [ddLoop_pos_ok_other wOk rest acc widx n hn hwv] at h ⊢
            cases i with
            | zero => simp [countersOf] at h; simp [writesOf]; omega
            | succ j => simp [countersOf] at h
      | false =>
        rw [ddLoop_pos_wfail wOk rest acc widx n e hn hwv] at h
        simp [countersOf] at h
    · have hz : n = 0 := by omega
      subst hz
      cases e with
      | none =>
        rw [ddLoop_zero_none wOk rest acc widx] at h ⊢
        cases i with
        | zero => simp [countersOf] at h; simp [writesOf]; omega
        | succ j =>
          simp only [countersOf, List.map_cons, List.getElem?_cons_succ] at h
          have hx := ih acc widx j x h
          simp only [List.take_succ_cons, writesOf, List.filterMap_cons]
          unfold writesOf at hx
          exact hx
      | some re =>
        cases re with
        | eof =>
          rw [ddLoop_zero_eof wOk rest acc widx] at h
          simp [countersOf] at h
        | other =>
          rw [ddLoop_zero_other wOk rest acc widx] at h
          simp [countersOf] at h

theorem ddLoop_mono (wOk : Nat → Bool) :
    ∀ (evs : List ReadEv) (acc widx : Nat),
      List.Chain' (fun a b : Nat => a ≤ b)
        (acc :: countersOf (ddLoop wOk evs acc widx).1) := by
  intro evs
  induction evs with
  | nil => intro acc widx; simp [ddLoop_nil, countersOf]
  | cons ev rest ih =>
    intro acc widx
    obtain ⟨n, e⟩ := ev
    by_cases hn : 0 < n
    · cases hwv : wOk widx with
      | true =>
        cases e with
        | none =>
          rw [ddLoop_pos_ok_none wOk rest acc widx n hn hwv]
          simp only [countersOf, List.map_cons]
          rw [List.chain'_cons]
          exact ⟨by omega, ih (acc + n) (widx + 1)⟩
        | some re =>
          cases re with
          | eof =>
            rw [ddLoop_pos_ok_eof wOk rest acc widx n hn hwv]
            simp [countersOf, List.chain'_cons]
          | other =>
            rw [ddLoop_pos_ok_other wOk rest acc widx n hn hwv]
            simp [countersOf, List.chain'_cons]
      | false =>
        rw [ddLoop_pos_wfail wOk rest acc widx n e hn hwv]
        simp [countersOf]
    · have hz : n = 0 := by omega
      subst hz
      cases e with
      | none =>
        rw [ddLoop_zero_none wOk rest acc widx]
        simp only [countersOf, List.map_cons]
        rw [List.chain'_cons]
        exact ⟨le_refl acc, ih acc widx⟩
      | some re =>
        cases re with
        | eof => rw [ddLoop_zero_eof wOk rest acc widx]; simp [countersOf]
        | other => rw [ddLoop_zero_other wOk rest acc widx]; simp [countersOf]

theorem ddLoop_writes_le (wOk : Nat → Bool) :
    ∀ (evs : List ReadEv) (acc widx B : Nat), (∀ ev ∈ evs, ev.1 ≤ B) →
      ∀ w ∈ writesOf (ddLoop wOk evs acc widx).1, w ≤ B := by
  intro evs
  induction evs with
  | nil => intro acc widx B _ w hw; simp [ddLoop_nil, writesOf] at hw
  | cons ev rest ih =>
    intro acc widx B hB w hw
    obtain ⟨n, e⟩ := ev
    have hnB : n ≤ B := hB (n, e) (by simp)
    have hrest : ∀ ev ∈ rest, ev.1 ≤ B := fun x hx => hB x (by simp [hx])
    by_cases hn : 0 < n
    · cases hwv : wOk widx with
      | true =>
        cases e with
        | none =>
          rw [ddLoop_pos_ok_none wOk rest acc widx n hn hwv] at hw
          simp only [writesOf, List.filterMap_cons] at hw
          rcases List.mem_cons.mp hw with rfl | hw2
          · exact hnB
          · exact ih (acc + n) (widx + 1) B hrest w hw2
        | some re =>
          cases re with
          | eof =>
            rw [ddLoop_pos_ok_eof wOk rest acc widx n hn hwv] at hw
            simp [writesOf] at hw
            omega
          | other =>
            rw [ddLoop_pos_ok_other wOk rest acc widx n hn hwv] at hw
            simp [writesOf] at hw
            omega
      | false =>
        rw [ddLoop_pos_wfail wOk rest acc widx n e hn hwv] at hw
        simp [writesOf] at hw
    · have hz : n = 0 := by omega
      subst hz
      cases e with
      | none =>
        rw [ddLoop_zero_none wOk rest acc widx] at hw
        simp only [writesOf, List.filterMap_cons] at hw
        exact ih acc widx B hrest w hw
      | some re =>
        cases re with
        | eof => rw [ddLoop_zero_eof wOk rest acc widx] at hw; simp [writesOf] at hw
        | other => rw [ddLoop_zero_other wOk rest acc widx] at hw; simp [writesOf] at hw

/-- Claim C2: over every run of the copy loop, the cumulative counter is
monotonically non-decreasing and at every point equals the initial value
plus the sum of the sizes of the writes that have succeeded so far; each
iteration reads at most one block (so every write is at most the block
size), writes exactly the bytes read and only then adds them to the
counter; a zero-byte read with no error just continues the loop;
end-of-stream terminates it successfully; a write error or a non-EOF
read error aborts it with the partial count retained; and for a nonzero
block size `dd` is exactly this loop started at counter 0. -/
theorem dd_counter_spec (wOk : Nat → Bool) (evs : List ReadEv) (acc widx : Nat) :
    ((ddLoop wOk evs acc widx).2.1 =
       acc + (writesOf (ddLoop wOk evs acc widx).1).sum) ∧
    (∀ i x : Nat, (countersOf (ddLoop wOk evs acc widx).1)[i]? = some x →
       x = acc + (writesOf ((ddLoop wOk evs acc widx).1.take (i + 1))).sum) ∧
    List.Chain' (fun a b : Nat => a ≤ b)
      (acc :: countersOf (ddLoop wOk evs acc widx).1) ∧
    (∀ B : Nat, (∀ ev ∈ evs, ev.1 ≤ B) →
       ∀ w ∈ writesOf (ddLoop wOk evs acc widx).1, w ≤ B) ∧
    (∀ rest : List ReadEv, ddLoop wOk ((0, none) :: rest) acc widx =
       (⟨none, acc⟩ :: (ddLoop wOk rest acc widx).1, (ddLoop wOk rest acc widx).2)) ∧
    (ddLoop wOk ((0, some .eof) :: evs) acc widx = ([], acc, .success)) ∧
    (∀ (n : Nat) (rest : List ReadEv), 0 < n → wOk widx = true →
       ddLoop wOk ((n, some .eof) :: rest) acc widx =
         ([⟨some n, acc + n⟩], acc + n, .success)) ∧
    (∀ (n : Nat) (e : Option RErr) (rest : List ReadEv), 0 < n → wOk widx = false →
       ddLoop wOk ((n, e) :: rest) acc widx = ([], acc, .failure .writeErr)) ∧
    (∀ (n : Nat) (rest : List ReadEv), 0 < n → wOk widx = true →
       ddLoop wOk ((n, some .other) :: rest) acc widx =
         ([⟨some n, acc + n⟩], acc + n, .failure .readErr)) ∧
    (ddLoop wOk ((0, some .other) :: evs) acc widx = ([], acc, .failure .readErr)) ∧
    (∀ bs : Nat, bs ≠ 0 → dd bs wOk evs = ddLoop wOk evs 0 0) := by
  refine ⟨ddLoop_counter wOk evs acc widx,
    fun i x h => ddLoop_counter_at wOk evs acc widx i x h,
    ddLoop_mono wOk evs acc widx,
    fun B hB w hw => ddLoop_writes_le wOk evs acc widx B hB w hw,
    fun rest => ddLoop_zero_none wOk rest acc widx,
    ddLoop_zero_eof wOk evs acc widx,
    fun n rest hn hw => ddLoop_pos_ok_eof wOk rest acc widx n hn hw,
    fun n e rest hn hw => ddLoop_pos_wfail wOk rest acc widx n e hn hw,
    fun n rest hn hw => ddLoop_pos_ok_other wOk rest acc widx n hn hw,
    ddLoop_zero_other wOk evs acc widx,
    fun bs hbs => by unfold dd; rw [if_neg hbs]⟩

/-- Witness for `dd_counter_spec`: a failing write aborts the loop with
the partial count (here 0) retained. -/
theorem dd_counter_spec_witness :
    ddLoop (fun _ => false) [(2, none)] 0 0 = ([], 0, .failure .writeErr) := by
  exact (dd_counter_spec (fun _ => false) [] 0 0).2.2.2.2.2.2.2.1 2 none [] (by decide) rfl

/-! ### C9 — lock discipline on the mutable transfer state -/

/-- Claim C9 is violated by the code: the renderer's snapshot, the
ticker's finished-poll and the worker's completion marking do take the
transfer's mutex, but the worker's copy-loop counter update
(`*bytesWritten += int64(n)`, dd-multi.go:188) and `inFile`'s write of
the resolved total run with no lock at all — so not every access to the
mutable `TransferState` fields is performed under the per-transfer
mutual-exclusion guard. -/
theorem mutex_guard_violation :
    guarded (workerEvents 1) = false ∧
    guarded ddIterEvents = false ∧
    guarded inFileEvents = false ∧
    guarded printAllSnapshotEvents = true ∧
    guarded tickCheckEvents = true ∧
    guarded workerFinishEvents = true := by
  exact ⟨by decide, by decide, by decide, by decide, by decide, by decide⟩

/-! ### C7 — percentage and bar geometry -/

theorem truncQ_eq_floor {q : Rat} (h : 0 ≤ q) : truncQ q = ⌊q⌋ := by
  have hnum : 0 ≤ q.num := Rat.num_nonneg.mpr h
  unfold truncQ
  rw [if_neg (by omega)]
  rw [Rat.floor_def]
  have hq : q.num = (q.num.toNat : Int) := (Int.toNat_of_nonneg hnum).symm
  rw [hq]
  exact_mod_cast rfl

theorem pctOf_nonneg (transferred total : Int) (h : 0 ≤ transferred) :
    0 ≤ pctOf transferred total := by
  simp only [pctOf]
  by_cases h0 : 0 < total
  · rw [if_pos h0]
    have hp : (0 : Rat) ≤ (transferred : Rat) / (total : Rat) * 100 := by
      apply mul_nonneg
      · apply div_nonneg
        · exact_mod_cast h
        · exact_mod_cast h0.le
      · norm_num
    by_cases h1 : 100 < (transferred : Rat) / (total : Rat) * 100
    · rw [if_pos h1]; norm_num
    · rw [if_neg h1]; exact hp
  · rw [if_neg h0]

theorem pctOf_le_100 (transferred total : Int) : pctOf transferred total ≤ 100 := by
  simp only [pctOf]
  by_cases h0 : 0 < total
  · rw [if_pos h0]
    by_cases h1 : 100 < (transferred : Rat) / (total : Rat) * 100
    · rw [if_pos h1]
    · rw [if_neg h1]; exact not_lt.mp h1
  · rw [if_neg h0]; norm_num

/-- Claim C7: the rendered completion percentage is
min(100, transferred/total × 100) when the resolved total is positive
and 0 otherwise, and the bar's filled-cell count is
⌊percentage/100 × 50⌋, never exceeding the 50-cell width. -/
theorem pct_bar_clamp (transferred total : Int) (h : 0 ≤ transferred) :
    pctOf transferred total =
      (if 0 < total then min 100 ((transferred : Rat) / (total : Rat) * 100) else 0) ∧
    filledOf (pctOf transferred total) = ⌊pctOf transferred total / 100 * 50⌋ ∧
    filledOf (pctOf transferred total) ≤ 50 := by
  have hp0 := pctOf_nonneg transferred total h
  have hp100 := pctOf_le_100 transferred total
  have hq0 : (0 : Rat) ≤ pctOf transferred total / 100 * 50 :=
    mul_nonneg (div_nonneg hp0 (by norm_num)) (by norm_num)
  have hq50 : pctOf transferred total / 100 * 50 ≤ 50 := by linarith
  have hfl : ⌊pctOf transferred total / 100 * 50⌋ ≤ 50 := by
    have h1 := Int.floor_le_floor (α := Rat) hq50
    simpa using h1
  have htr : truncQ (pctOf transferred total / 100 * 50) =
      ⌊pctOf transferred total / 100 * 50⌋ := truncQ_eq_floor hq0
  refine ⟨?_, ?_, ?_⟩
  · simp only [pctOf]
    by_cases h0 : 0 < total
    · rw [if_pos h0, if_pos h0]
      rcases le_or_lt ((transferred : Rat) / (total : Rat) * 100) 100 with hp | hp
      · rw [if_neg (not_lt.mpr hp), min_eq_right hp]
      · rw [if_pos hp, min_eq_left hp.le]
    · rw [if_neg h0, if_neg h0]
  · simp only [filledOf]
    rw [htr, if_neg (not_lt.mpr hfl)]
  · simp only [filledOf]
    rw [htr, if_neg (not_lt.mpr hfl)]
    exact hfl

/-- Witness for `pct_bar_clamp` at transferred 5, total 10. -/
theorem pct_bar_clamp_witness :
    pctOf 5 10 = min 100 ((5 : Rat) / (10 : Rat) * 100) ∧ filledOf (pctOf 5 10) ≤ 50 := by
  refine ⟨?_, (pct_bar_clamp 5 10 (by decide)).2.2⟩
  have h1 := (pct_bar_clamp 5 10 (by decide)).1
  simpa using h1

/-! ### C8 — the timer string -/

theorem pad2_length (l : List Char) : 2 ≤ (pad2 l).length := by
  unfold pad2
  by_cases h : l.length < 2
  · rw [if_pos h]
    simp only [List.length_append, List.length_replicate]
    omega
  · rw [if_neg h]
    omega

theorem pad2_head_cases (l : List Char) :
    (pad2 l).head? = some '0' ∨ (pad2 l).head? = l.head? := by
  unfold pad2
  by_cases h : l.length < 2
  · rw [if_pos h]
    left
    cases l with
    | nil => rfl
    | cons a t =>
      cases t with
      | nil => rfl
      | cons b t2 =>
        simp only [List.length_cons] at h
        omega
  · rw [if_neg h]
    right
    rfl

theorem natDigitsAux_mem (fuel : Nat) :
    ∀ (n : Nat), ∀ c ∈ natDigitsAux fuel n, ∃ d, d < 10 ∧ c = digitChar d := by
  induction fuel with
  | zero => intro n c hc; simp [natDigitsAux] at hc
  | succ f ih =>
    intro n c hc
    cases n with
    | zero => simp [natDigitsAux] at hc
    | succ m =>
      simp only [natDigitsAux, List.mem_append, List.mem_singleton] at hc
      rcases hc with hc | rfl
      · exact ih ((m + 1) / 10) c hc
      · exact ⟨(m + 1) % 10, Nat.mod_lt _ (by omega), rfl⟩

theorem digitChar_ne_qmark (d : Nat) (hd : d < 10) : digitChar d ≠ '?' := by
  interval_cases d <;> decide

theorem intToChars_no_qmark (i : Int) : ∀ c ∈ intToChars i, c ≠ '?' := by
  intro c hc
  unfold intToChars at hc
  by_cases h : i < 0
  · rw [if_pos h] at hc
    rcases List.mem_cons.mp hc with rfl | hc2
    · decide
    · obtain ⟨d, hd, rfl⟩ := natDigitsAux_mem _ _ c hc2
      exact digitChar_ne_qmark d hd
  · rw [if_neg h] at hc
    obtain ⟨d, hd, rfl⟩ := natDigitsAux_mem _ _ c hc
    exact digitChar_ne_qmark d hd

theorem pad2_intToChars_head (i : Int) (a : Char) (t : List Char)
    (h : pad2 (intToChars i) = a :: t) : a ≠ '?' := by
  rcases pad2_head_cases (intToChars i) with hh | hh
  · rw [h] at hh
    simp only [List.head?_cons, Option.some.injEq] at hh
    rw [hh]
    decide
  · rw [h] at hh
    cases hl : intToChars i with
    | nil => rw [hl] at hh; simp at hh
    | cons b t2 =>
      rw [hl] at hh
      simp only [List.head?_cons, Option.some.injEq] at hh
      rw [hh]
      exact intToChars_no_qmark i b (by rw [hl]; simp)

theorem hmsOf_ne_qmarks (sec : Rat) : hmsOf sec ≠ qmarks := by
  intro heq
  simp only [hmsOf] at heq
  cases hA : pad2 (intToChars (truncQ (sec / 3600))) with
  | nil =>
    have := pad2_length (intToChars (truncQ (sec / 3600)))
    rw [hA] at this
    simp at this
  | cons a A' =>
    rw [hA, List.cons_append] at heq
    have hq : qmarks = '?' :: ['?', ':', '?', '?', ':', '?', '?'] := rfl
    rw [hq] at heq
    have ha : a = '?' := by injection heq
    exact pad2_intToChars_head _ a A' hA (by rw [ha])

/-- Claim C8: the left-hand timer string is the elapsed time rendered
`HH:MM:SS` exactly when the transfer is finished and its percentage has
reached 100; otherwise it is the ETA — remaining bytes (as MB) divided
by the current rate — rendered `HH:MM:SS`, and it is the placeholder
`"??:??:??"` exactly when the rate, the resolved total, or the remaining
byte count is non-positive (an unknown total being 0). -/
theorem timer_eta_spec (transferred total : Int) (elapsed : Rat) (fin : Bool) :
    ((fin = true ∧ 100 ≤ pctOf transferred total) →
       timerStr transferred total elapsed (rateOf transferred elapsed) fin
         (pctOf transferred total) = hmsOf elapsed) ∧
    (¬(fin = true ∧ 100 ≤ pctOf transferred total) →
       (timerStr transferred total elapsed (rateOf transferred elapsed) fin
           (pctOf transferred total) = qmarks ↔
         (rateOf transferred elapsed ≤ 0 ∨ total ≤ 0 ∨ total - transferred ≤ 0)) ∧
       (0 < rateOf transferred elapsed → 0 < total → transferred < total →
         timerStr transferred total elapsed (rateOf transferred elapsed) fin
             (pctOf transferred total) =
           hmsOf (((total - transferred : Int) : Rat) / (1024 * 1024) /
             rateOf transferred elapsed))) := by
  have hGiff : (rateOf transferred elapsed ≤ 0 ∨ total ≤ 0 ∨
      (total : Rat) ≤ (transferred : Rat)) ↔
      (rateOf transferred elapsed ≤ 0 ∨ total ≤ 0 ∨ total - transferred ≤ 0) := by
    refine or_congr Iff.rfl (or_congr Iff.rfl ?_)
    rw [Int.cast_le]
    omega
  constructor
  · intro hc
    unfold timerStr
    rw [if_pos hc]
  · intro hc
    unfold timerStr
    rw [if_neg hc]
    have hframe : ¬(rateOf transferred elapsed ≤ 0 ∨ total ≤ 0 ∨
        (total : Rat) ≤ (transferred : Rat)) →
        computeETA transferred total elapsed (rateOf transferred elapsed) =
          hmsOf (((total - transferred : Int) : Rat) / (1024 * 1024) /
            rateOf transferred elapsed) := by
      intro hG2
      have hcomp := hG2
      push_neg at hcomp
      obtain ⟨hr, ht, htr⟩ := hcomp
      have hpos : (0 : Rat) < ((total - transferred : Int) : Rat) / (1024 * 1024) /
          rateOf transferred elapsed := by
        apply div_pos
        · apply div_pos
          · rw [Int.cast_pos]
            have h2 := Int.cast_lt.mp htr
            omega
          · norm_num
        · exact hr
      simp only [computeETA]
      rw [if_neg hG2, if_neg (not_lt.mpr hpos.le)]
    constructor
    · by_cases hG : rateOf transferred elapsed ≤ 0 ∨ total ≤ 0 ∨
          (total : Rat) ≤ (transferred : Rat)
      · constructor
        · intro _
          exact hGiff.mp hG
        · intro _
          simp only [computeETA]
          rw [if_pos hG]
      · constructor
        · intro h
          rw [hframe hG] at h
          exact absurd h (hmsOf_ne_qmarks _)
        · intro h
          exact absurd (hGiff.mpr h) hG
    · intro hr2 ht2 htr2
      apply hframe
      push_neg
      exact ⟨hr2, ht2, Int.cast_lt.mpr htr2⟩

/-- Witness for `timer_eta_spec`: an unfinished transfer with unknown
total (0) shows the placeholder. -/
theorem timer_eta_spec_witness :
    timerStr 0 0 1 (rateOf 0 1) false (pctOf 0 0) = qmarks := by
  exact ((timer_eta_spec 0 0 1 false).2 (by simp)).1.mpr (Or.inr (Or.inl le_rfl))
